import Mathlib

/-!
Formal model of the reversible heat-engine toy simulation (`src/main.rs`):
the `World` state, the permutation engine, the four rule variants and the
composite rule, together with the invertibility, conservation and framing
properties of the rule engine.
-/

/-- World state: a signed tick counter and three boolean slots (`struct World`). -/
structure World where
  t : Int
  battery : List Bool
  hot_bath : List Bool
  cold_bath : List Bool
deriving DecidableEq

/-- Count of true cells in a slot (the Rust `sumbools`). -/
def sumbools (xs : List Bool) : Nat := xs.count true

/-- Total number of true cells summed over the three slots of a world. -/
def World.total (w : World) : Nat :=
  sumbools w.battery + sumbools w.hot_bath + sumbools w.cold_bath

/-- Modelled from the spec: the seeded pseudorandom stream behind the shuffle
(`rand::rngs::StdRng` is external library code). One step of a 64-bit linear
congruential generator (Knuth MMIX constants), truncated to 64 bits. -/
def lcg (s : Nat) : Nat :=
  (6364136223846793005 * s + 1442695040888963407) % 18446744073709551616

/-- Modelled from the spec: the seeded pseudorandom shuffle
(`rand::seq::SliceRandom::shuffle` is external library code). A Fisher-Yates
draw: repeatedly pick a position among the remaining elements from the seeded
stream, emit it, and continue on the rest. The fuel argument is the initial
length, so the recursion is structural. -/
def shuffleAux : Nat → List Nat → Nat → List Nat
  | 0, xs, _ => xs
  | _ + 1, [], _ => []
  | fuel + 1, x :: rest, st =>
    let l := x :: rest
    let a := l.getD (st % l.length) 0
    a :: shuffleAux fuel (l.erase a) (lcg st)

/-- Deterministic seeded permutation of `{0..n-1}` (the Rust
`generate_random_permutation`; the `StdRng` shuffle it calls is external
library code, modelled above keeping the spec's load-bearing properties:
determinism in `(n, seed)` and producing a permutation of `0..n`). -/
def generate_random_permutation (n : Nat) (seed : Nat) : List Nat :=
  shuffleAux n (List.range n) seed

/-- Apply a permutation to a sequence: position `i` of the result takes the
value at `permutation[i]` of a snapshot of the input (the Rust `permute`,
which copies the buffer before writing back). -/
def permute [Inhabited α] (permutation : List Nat) (xs : List α) : List α :=
  (List.range xs.length).map (fun i => xs.getD (permutation.getD i 0) default)

/-- One scatter step of permutation inversion: write `i` at position `p[i]`. -/
def invStep (p : List Nat) (inv : List Nat) (i : Nat) : List Nat :=
  inv.set (p.getD i 0) i

/-- Scatter the algebraic inverse of `p` over the buffer `init` (the loop shape
shared by the Rust `invert_permutation`, which starts from a zero buffer, and
`Permute::inverse`, which starts from a clone of the forward permutation). -/
def invert_into (p : List Nat) (init : List Nat) : List Nat :=
  (List.range p.length).foldl (invStep p) init

/-- Algebraic permutation inverse (the Rust `invert_permutation`):
`inverse[p[i]] = i` scattered over a zero-filled buffer. -/
def invert_permutation (p : List Nat) : List Nat :=
  invert_into p (List.replicate p.length 0)

/-- Stored-permutation rule (the Rust `Permute` struct): one permutation per slot. -/
structure Permute where
  battery : List Nat
  hot_bath : List Nat
  cold_bath : List Nat
deriving DecidableEq

/-- Seed-and-time-varying permutation rule (the Rust `WeirdPermute` struct). -/
structure WeirdPermute where
  seed : Nat
  inverted : Bool
deriving DecidableEq

/-- u64 `wrapping_add_signed`: add an i64 to a u64, wrapping modulo 2^64. -/
def wrapAddSigned (s : Nat) (t : Int) : Nat :=
  (((s : Int) + t) % 18446744073709551616).toNat

/-- Step of `ProbeAndSwap`: if `hot_bath[0]` is true, exchange `battery[1]`
with `hot_bath[1]`; otherwise do nothing. -/
def probeAndSwapStep (w : World) : World :=
  if w.hot_bath.getD 0 false then
    { w with
      battery := w.battery.set 1 (w.hot_bath.getD 1 false),
      hot_bath := w.hot_bath.set 1 (w.battery.getD 1 false) }
  else w

/-- Step of `Permute`: rewrite each slot by its stored permutation. -/
def Permute.stepW (r : Permute) (w : World) : World :=
  { w with
    battery := permute r.battery w.battery,
    hot_bath := permute r.hot_bath w.hot_bath,
    cold_bath := permute r.cold_bath w.cold_bath }

/-- Inverse of `Permute`: scatter `inverse[p[i]] = i` for each slot, starting
from a clone of the forward data (exactly the Rust `Permute::inverse`). -/
def Permute.inverseR (r : Permute) : Permute :=
  { battery := invert_into r.battery r.battery,
    hot_bath := invert_into r.hot_bath r.hot_bath,
    cold_bath := invert_into r.cold_bath r.cold_bath }

/-- Permutation a `WeirdPermute` applies to a slot of length `n` at effective
time `t`: generate from `seed + t` (wrapping), algebraically inverted when the
rule is in inverted orientation. -/
def WeirdPermute.slotPerm (r : WeirdPermute) (t : Int) (n : Nat) : List Nat :=
  if r.inverted then
    invert_permutation (generate_random_permutation n (wrapAddSigned r.seed t))
  else
    generate_random_permutation n (wrapAddSigned r.seed t)

/-- Step of `WeirdPermute`: effective time is `world.t` minus 1 when inverted;
each slot is rewritten by the derived permutation. -/
def WeirdPermute.stepW (r : WeirdPermute) (w : World) : World :=
  { w with
    battery :=
      permute (r.slotPerm (w.t - if r.inverted then 1 else 0) w.battery.length) w.battery,
    hot_bath :=
      permute (r.slotPerm (w.t - if r.inverted then 1 else 0) w.hot_bath.length) w.hot_bath,
    cold_bath :=
      permute (r.slotPerm (w.t - if r.inverted then 1 else 0) w.cold_bath.length) w.cold_bath }

/-- Step of `CondSwap`: on readout `(hot[0], hot[1], cold[0], battery[0])`
equal to `(T,T,F,F)` or `(F,F,T,T)`, exchange `hot[0]` with `cold[0]` and
`hot[1]` with `battery[0]`; otherwise do nothing. -/
def condSwapStep (w : World) : World :=
  if (w.hot_bath.getD 0 false, w.hot_bath.getD 1 false,
        w.cold_bath.getD 0 false, w.battery.getD 0 false)
        = (true, true, false, false)
      ∨ (w.hot_bath.getD 0 false, w.hot_bath.getD 1 false,
          w.cold_bath.getD 0 false, w.battery.getD 0 false)
        = (false, false, true, true) then
    { w with
      hot_bath := (w.hot_bath.set 0 (w.cold_bath.getD 0 false)).set 1 (w.battery.getD 0 false),
      cold_bath := w.cold_bath.set 0 (w.hot_bath.getD 0 false),
      battery := w.battery.set 0 (w.hot_bath.getD 1 false) }
  else w

/-- The closed rule type: the four concrete variants plus the composite
(`Vec<Box<dyn Rule>>`), which may nest arbitrarily. -/
inductive Rule : Type where
  | probeAndSwap : Rule
  | permuteR : Permute → Rule
  | weird : WeirdPermute → Rule
  | condSwap : Rule
  | composite : List Rule → Rule

mutual

/-- Forward application of a rule to a world (`Rule::step`). -/
def Rule.step : Rule → World → World
  | .probeAndSwap, w => probeAndSwapStep w
  | .permuteR r, w => r.stepW w
  | .weird r, w => r.stepW w
  | .condSwap, w => condSwapStep w
  | .composite rs, w => stepSeq rs w

/-- Apply a sequence of rules in order, each seeing its predecessors'
mutations (`<Vec<Box<dyn Rule>> as Rule>::step`). -/
def stepSeq : List Rule → World → World
  | [], w => w
  | r :: rs, w => stepSeq rs (Rule.step r w)

end

mutual

/-- Inverse of a rule (`Rule::inverse`). -/
def Rule.inverse : Rule → Rule
  | .probeAndSwap => .probeAndSwap
  | .permuteR r => .permuteR r.inverseR
  | .weird r => .weird ⟨r.seed, !r.inverted⟩
  | .condSwap => .condSwap
  | .composite rs => .composite (invSeq rs)

/-- Inverses of a rule sequence pushed in reverse iteration order
(`<Vec<Box<dyn Rule>> as Rule>::inverse`). -/
def invSeq : List Rule → List Rule
  | [] => []
  | r :: rs => invSeq rs ++ [r.inverse]

end

mutual

/-- Well-formedness of a world's slot lengths `(nb, nh, nc)` for a rule: every
indexed access is in range and every stored permutation is a permutation of
the matching slot's index range. -/
def Rule.compatB : Rule → Nat → Nat → Nat → Bool
  | .probeAndSwap, nb, nh, _ => decide (2 ≤ nb) && decide (2 ≤ nh)
  | .permuteR r, nb, nh, nc =>
    decide (List.Perm r.battery (List.range nb))
      && decide (List.Perm r.hot_bath (List.range nh))
      && decide (List.Perm r.cold_bath (List.range nc))
  | .weird _, _, _, _ => true
  | .condSwap, nb, nh, nc => decide (1 ≤ nb) && decide (2 ≤ nh) && decide (1 ≤ nc)
  | .composite rs, nb, nh, nc => compatSeq rs nb nh nc

/-- Well-formedness of slot lengths for every rule of a sequence. -/
def compatSeq : List Rule → Nat → Nat → Nat → Bool
  | [], _, _, _ => true
  | r :: rs, nb, nh, nc => r.compatB nb nh nc && compatSeq rs nb nh nc

end

mutual

/-- True when every `WeirdPermute` occurring in the rule is in forward
orientation (`inverted = false`). -/
def Rule.fwdB : Rule → Bool
  | .probeAndSwap => true
  | .permuteR _ => true
  | .weird r => !r.inverted
  | .condSwap => true
  | .composite rs => fwdSeq rs

/-- Forward orientation of every rule of a sequence. -/
def fwdSeq : List Rule → Bool
  | [] => true
  | r :: rs => r.fwdB && fwdSeq rs

end

/-- The invertibility protocol of the spec: clone, apply `step`, increment the
tick, apply the inverse rule's `step`, decrement the tick. -/
def roundTrip (r : Rule) (w : World) : World :=
  let w1 := Rule.step r w
  let w2 := { w1 with t := w1.t + 1 }
  let w3 := Rule.step r.inverse w2
  { w3 with t := w3.t - 1 }

/-! Helper lemmas about indexed list access and update. -/

theorem getD_set_self {α : Type*} (l : List α) (i : Nat) (v d : α)
    (h : i < l.length) : (l.set i v).getD i d = v := by
  rw [List.getD_eq_getElem (l.set i v) d (by simpa using h)]
  exact List.getElem_set_self _

theorem getD_set_ne {α : Type*} (l : List α) {i j : Nat} (v d : α)
    (hne : i ≠ j) : (l.set i v).getD j d = l.getD j d := by
  by_cases hj : j < l.length
  · rw [List.getD_eq_getElem (l.set i v) d (by simpa using hj),
      List.getD_eq_getElem l d hj]
    exact List.getElem_set_ne hne _
  · rw [List.getD_eq_default (l.set i v) d (by simpa using Nat.le_of_not_lt hj),
      List.getD_eq_default l d (Nat.le_of_not_lt hj)]

theorem set_getD_self {α : Type*} (l : List α) (i : Nat) (d : α)
    (h : i < l.length) : l.set i (l.getD i d) = l := by
  apply List.ext_getElem (by simp)
  intro j h1 h2
  by_cases hij : i = j
  · subst hij
    rw [List.getElem_set_self, List.getD_eq_getElem l d h]
  · exact List.getElem_set_ne hij _

/-! The generated list is always a permutation of its input. -/

theorem shuffleAux_perm :
    ∀ (fuel : Nat) (xs : List Nat) (st : Nat), List.Perm (shuffleAux fuel xs st) xs
  | 0, xs, _ => List.Perm.refl xs
  | _ + 1, [], _ => List.Perm.refl []
  | fuel + 1, x :: rest, st => by
    rw [shuffleAux]
    have hlen : st % (x :: rest).length < (x :: rest).length :=
      Nat.mod_lt _ (by simp)
    have hmem : (x :: rest).getD (st % (x :: rest).length) 0 ∈ x :: rest := by
      rw [List.getD_eq_getElem _ 0 hlen]
      exact List.getElem_mem hlen
    exact (List.Perm.cons _ (shuffleAux_perm fuel _ (lcg st))).trans
      (List.perm_cons_erase hmem).symm

theorem generate_perm (n seed : Nat) :
    List.Perm (generate_random_permutation n seed) (List.range n) :=
  shuffleAux_perm n (List.range n) seed

/-! Basic behaviour of `permute`. -/

theorem permute_length {α : Type*} [Inhabited α] (p : List Nat) (xs : List α) :
    (permute p xs).length = xs.length := by
  simp [permute]

theorem permute_getElem {α : Type*} [Inhabited α] (p : List Nat) (xs : List α)
    (i : Nat) (h : i < (permute p xs).length) :
    (permute p xs)[i] = xs.getD (p.getD i 0) default := by
  simp [permute]

theorem map_getD_range {α : Type*} [Inhabited α] (xs : List α) :
    (List.range xs.length).map (fun j => xs.getD j default) = xs := by
  apply List.ext_getElem (by simp)
  intro i h1 h2
  simp only [List.getElem_map, List.getElem_range]
  exact List.getD_eq_getElem xs default h2

theorem permute_eq_map {α : Type*} [Inhabited α] (p : List Nat) (xs : List α)
    (h : p.length = xs.length) :
    permute p xs = p.map (fun j => xs.getD j default) := by
  apply List.ext_getElem (by simp [permute, h])
  intro i h1 h2
  simp only [permute, List.getElem_map, List.getElem_range]
  rw [List.getD_eq_getElem p 0 (by simpa [h] using h2)]

theorem permute_perm {α : Type*} [Inhabited α] {p : List Nat} {xs : List α}
    (hp : List.Perm p (List.range xs.length)) :
    List.Perm (permute p xs) xs := by
  rw [permute_eq_map p xs (by simpa using hp.length_eq)]
  have h1 : List.Perm (p.map (fun j => xs.getD j default))
      ((List.range xs.length).map (fun j => xs.getD j default)) := hp.map _
  rwa [map_getD_range] at h1

/-! Facts about a list that is a permutation of `range n`. -/

theorem perm_range_length {p : List Nat} {n : Nat}
    (hp : List.Perm p (List.range n)) : p.length = n := by
  simpa using hp.length_eq

theorem perm_range_getD_lt {p : List Nat} {n : Nat}
    (hp : List.Perm p (List.range n)) {i : Nat} (hi : i < n) : p.getD i 0 < n := by
  have hlen : i < p.length := by rwa [perm_range_length hp]
  rw [List.getD_eq_getElem p 0 hlen]
  have hmem : p[i] ∈ p := List.getElem_mem hlen
  have := (hp.mem_iff).mp hmem
  simpa using this

theorem perm_range_getD_inj {p : List Nat} {n : Nat}
    (hp : List.Perm p (List.range n)) {i j : Nat} (hi : i < n) (hj : j < n)
    (h : p.getD i 0 = p.getD j 0) : i = j := by
  have hnd : p.Nodup := (hp.nodup_iff).mpr (List.nodup_range n)
  have hi' : i < p.length := by rwa [perm_range_length hp]
  have hj' : j < p.length := by rwa [perm_range_length hp]
  rw [List.getD_eq_getElem p 0 hi', List.getD_eq_getElem p 0 hj'] at h
  exact (hnd.getElem_inj_iff).mp h

theorem perm_range_surj {p : List Nat} {n : Nat}
    (hp : List.Perm p (List.range n)) {j : Nat} (hj : j < n) :
    ∃ i, i < n ∧ p.getD i 0 = j := by
  have hmem : j ∈ p := (hp.mem_iff).mpr (by simpa using hj)
  obtain ⟨i, hi, hpi⟩ := List.getElem_of_mem hmem
  refine ⟨i, by rwa [perm_range_length hp] at hi, ?_⟩
  rw [List.getD_eq_getElem p 0 hi, hpi]

/-! Behaviour of the inversion scatter loop. -/

theorem foldl_invStep_length (p : List Nat) :
    ∀ (l acc : List Nat), (l.foldl (invStep p) acc).length = acc.length
  | [], _ => rfl
  | _ :: l, acc => by
    rw [List.foldl_cons, foldl_invStep_length p l]
    simp [invStep]

theorem invert_into_length (p init : List Nat) :
    (invert_into p init).length = init.length :=
  foldl_invStep_length p (List.range p.length) init

theorem invert_permutation_length (p : List Nat) :
    (invert_permutation p).length = p.length := by
  rw [invert_permutation, invert_into_length, List.length_replicate]

theorem foldl_invStep_getD_of_forall_ne (p : List Nat) :
    ∀ (l acc : List Nat) (k : Nat), (∀ j ∈ l, p.getD j 0 ≠ k) →
      (l.foldl (invStep p) acc).getD k 0 = acc.getD k 0
  | [], _, _, _ => rfl
  | j :: l, acc, k, hne => by
    rw [List.foldl_cons,
      foldl_invStep_getD_of_forall_ne p l _ k (fun a ha => hne a (List.mem_cons_of_mem j ha))]
    show (acc.set (p.getD j 0) j).getD k 0 = acc.getD k 0
    exact getD_set_ne acc j 0 (hne j (List.mem_cons_self j l))

theorem foldl_invStep_getD (p : List Nat) :
    ∀ (l acc : List Nat), l.Nodup →
      (∀ a ∈ l, ∀ b ∈ l, p.getD a 0 = p.getD b 0 → a = b) →
      (∀ j ∈ l, p.getD j 0 < acc.length) →
      ∀ i ∈ l, (l.foldl (invStep p) acc).getD (p.getD i 0) 0 = i
  | [], _, _, _, _, _, hi => absurd hi (List.not_mem_nil _)
  | j :: l, acc, hnd, hinj, hbound, i, hi => by
    have hjl : j ∉ l := (List.nodup_cons.mp hnd).1
    rw [List.foldl_cons]
    rcases List.mem_cons.mp hi with hij | hil
    · subst hij
      rw [foldl_invStep_getD_of_forall_ne p l _ _ ?hne]
      case hne =>
        intro a ha hpa
        have hai : a = i := hinj a (List.mem_cons_of_mem i ha) i (List.mem_cons_self i l) hpa
        subst hai
        exact absurd ha hjl
      exact getD_set_self acc _ i 0 (hbound i (List.mem_cons_self i l))
    · exact foldl_invStep_getD p l _
        (List.nodup_cons.mp hnd).2
        (fun a ha b hb => hinj a (List.mem_cons_of_mem j ha) b (List.mem_cons_of_mem j hb))
        (fun a ha => by
          rw [invStep, List.length_set]
          exact hbound a (List.mem_cons_of_mem j ha))
        i hil

/-- Left-inverse property of the scatter: the inverted buffer holds `i` at
position `p[i]`, for any initial buffer at least as long as `p`. -/
theorem invert_into_getD {p : List Nat} {n : Nat}
    (hp : List.Perm p (List.range n)) (init : List Nat)
    (hlen : p.length ≤ init.length) {i : Nat} (hi : i < n) :
    (invert_into p init).getD (p.getD i 0) 0 = i := by
  have hplen : p.length = n := perm_range_length hp
  refine foldl_invStep_getD p (List.range p.length) init (List.nodup_range _)
    ?_ ?_ i ?_
  · intro a ha b hb hab
    exact perm_range_getD_inj hp (by simpa [hplen] using ha) (by simpa [hplen] using hb) hab
  · intro j hj
    have := perm_range_getD_lt hp (n := n) (by simpa [hplen] using hj)
    omega
  · simpa [hplen] using hi

/-- Right-inverse property: at every position `j < n` the inverted buffer
holds an index below `n` that `p` maps back to `j`. -/
theorem invert_into_rightInv {p : List Nat} {n : Nat}
    (hp : List.Perm p (List.range n)) (init : List Nat)
    (hlen : p.length ≤ init.length) {j : Nat} (hj : j < n) :
    (invert_into p init).getD j 0 < n ∧
      p.getD ((invert_into p init).getD j 0) 0 = j := by
  obtain ⟨i, hi, hpi⟩ := perm_range_surj hp hj
  have h1 : (invert_into p init).getD j 0 = i := by
    rw [← hpi]
    exact invert_into_getD hp init hlen hi
  rw [h1]
  exact ⟨hi, hpi⟩

/-- The scattered inverse of a permutation of `range n` is again a permutation
of `range n`, for any initial buffer of length `n`. -/
theorem invert_into_perm {p : List Nat} {n : Nat}
    (hp : List.Perm p (List.range n)) {init : List Nat}
    (hlen : init.length = n) :
    List.Perm (invert_into p init) (List.range n) := by
  have hplen : p.length = n := perm_range_length hp
  have hqlen : (invert_into p init).length = n := by
    rw [invert_into_length, hlen]
  have hsub : invert_into p init ⊆ List.range n := by
    intro x hx
    obtain ⟨j, hj, hqj⟩ := List.getElem_of_mem hx
    have hjn : j < n := by rwa [hqlen] at hj
    have := (invert_into_rightInv hp init (by omega) hjn).1
    rw [List.getD_eq_getElem _ 0 hj, hqj] at this
    simpa using this
  have hnd : (invert_into p init).Nodup := by
    rw [List.nodup_iff_injective_get]
    intro ⟨a, ha⟩ ⟨b, hb⟩ hab
    simp only [List.get_eq_getElem] at hab
    have han : a < n := by rwa [hqlen] at ha
    have hbn : b < n := by rwa [hqlen] at hb
    have ha' := invert_into_rightInv hp init (by omega) han
    have hb' := invert_into_rightInv hp init (by omega) hbn
    rw [List.getD_eq_getElem _ 0 ha] at ha'
    rw [List.getD_eq_getElem _ 0 hb] at hb'
    have : a = b := by
      rw [← ha'.2, ← hb'.2, hab]
    simpa using this
  have hsp := List.subperm_of_subset hnd hsub
  exact hsp.perm_of_length_le (by simp [hqlen])

/-- The permutation inverse of a permutation of `range n` is a permutation of
`range n`. -/
theorem invert_permutation_perm {p : List Nat} {n : Nat}
    (hp : List.Perm p (List.range n)) :
    List.Perm (invert_permutation p) (List.range n) :=
  invert_into_perm hp (by simp [perm_range_length hp])

/-- Core round-trip: applying a permutation of `range n` and then its
scattered inverse (over any buffer of length `n`) restores the sequence. -/
theorem permute_invert_into {α : Type*} [Inhabited α] {p : List Nat} {n : Nat}
    (hp : List.Perm p (List.range n)) {init : List Nat} (hlen : init.length = n)
    {xs : List α} (hxs : xs.length = n) :
    permute (invert_into p init) (permute p xs) = xs := by
  have hplen : p.length = n := perm_range_length hp
  apply List.ext_getElem (by simp [permute_length, hxs])
  intro i h1 h2
  have hin : i < n := by rwa [hxs] at h2
  have hq := invert_into_rightInv hp init (by omega) hin
  rw [permute_getElem]
  have hylen : (permute p xs).length = n := by rw [permute_length, hxs]
  rw [List.getD_eq_getElem (permute p xs) default (by rw [hylen]; exact hq.1)]
  rw [permute_getElem]
  rw [hq.2]
  exact List.getD_eq_getElem xs default h2

/-- Specialisation to `invert_permutation`, the zero-buffer scatter. -/
theorem permute_invert_permutation {α : Type*} [Inhabited α] {p : List Nat}
    {n : Nat} (hp : List.Perm p (List.range n)) {xs : List α} (hxs : xs.length = n) :
    permute (invert_permutation p) (permute p xs) = xs :=
  permute_invert_into hp (by simp [perm_range_length hp]) hxs

/-! Frame lemmas: no step touches the tick, and every step preserves the
length of every slot. -/

theorem probeAndSwapStep_t (w : World) : (probeAndSwapStep w).t = w.t := by
  unfold probeAndSwapStep
  split <;> rfl

theorem condSwapStep_t (w : World) : (condSwapStep w).t = w.t := by
  unfold condSwapStep
  split <;> rfl

mutual

theorem Rule.step_t : ∀ (r : Rule) (w : World), (Rule.step r w).t = w.t
  | .probeAndSwap, w => by
    simp only [Rule.step]
    exact probeAndSwapStep_t w
  | .permuteR r, w => by simp only [Rule.step]; rfl
  | .weird r, w => by simp only [Rule.step]; rfl
  | .condSwap, w => by
    simp only [Rule.step]
    exact condSwapStep_t w
  | .composite rs, w => by
    simp only [Rule.step]
    exact stepSeq_t rs w

theorem stepSeq_t : ∀ (rs : List Rule) (w : World), (stepSeq rs w).t = w.t
  | [], w => by simp only [stepSeq]
  | r :: rs, w => by
    simp only [stepSeq]
    rw [stepSeq_t rs, Rule.step_t r]

end

theorem probeAndSwapStep_lens (w : World) :
    (probeAndSwapStep w).battery.length = w.battery.length ∧
      (probeAndSwapStep w).hot_bath.length = w.hot_bath.length ∧
      (probeAndSwapStep w).cold_bath.length = w.cold_bath.length := by
  unfold probeAndSwapStep
  split <;> simp

theorem condSwapStep_lens (w : World) :
    (condSwapStep w).battery.length = w.battery.length ∧
      (condSwapStep w).hot_bath.length = w.hot_bath.length ∧
      (condSwapStep w).cold_bath.length = w.cold_bath.length := by
  unfold condSwapStep
  split <;> simp

mutual

theorem Rule.step_lens : ∀ (r : Rule) (w : World),
    (Rule.step r w).battery.length = w.battery.length ∧
      (Rule.step r w).hot_bath.length = w.hot_bath.length ∧
      (Rule.step r w).cold_bath.length = w.cold_bath.length
  | .probeAndSwap, w => by
    simp only [Rule.step]
    exact probeAndSwapStep_lens w
  | .permuteR r, w => by
    simp only [Rule.step]
    exact ⟨permute_length _ _, permute_length _ _, permute_length _ _⟩
  | .weird r, w => by
    simp only [Rule.step]
    exact ⟨permute_length _ _, permute_length _ _, permute_length _ _⟩
  | .condSwap, w => by
    simp only [Rule.step]
    exact condSwapStep_lens w
  | .composite rs, w => by
    simp only [Rule.step]
    exact stepSeq_lens rs w

theorem stepSeq_lens : ∀ (rs : List Rule) (w : World),
    (stepSeq rs w).battery.length = w.battery.length ∧
      (stepSeq rs w).hot_bath.length = w.hot_bath.length ∧
      (stepSeq rs w).cold_bath.length = w.cold_bath.length
  | [], w => by simp [stepSeq]
  | r :: rs, w => by
    simp only [stepSeq]
    obtain ⟨h1, h2, h3⟩ := stepSeq_lens rs (Rule.step r w)
    obtain ⟨g1, g2, g3⟩ := Rule.step_lens r w
    exact ⟨h1.trans g1, h2.trans g2, h3.trans g3⟩

end

theorem stepSeq_append (rs₁ rs₂ : List Rule) :
    ∀ (w : World), stepSeq (rs₁ ++ rs₂) w = stepSeq rs₂ (stepSeq rs₁ w) := by
  induction rs₁ with
  | nil => intro w; simp only [List.nil_append, stepSeq]
  | cons r rs ih =>
    intro w
    simp only [List.cons_append, stepSeq]
    exact ih (Rule.step r w)

/-! Involution and tick-commutation lemmas for the two swap rules. -/

theorem probeAndSwap_involution (w : World) (hb : 2 ≤ w.battery.length)
    (hh : 2 ≤ w.hot_bath.length) :
    probeAndSwapStep (probeAndSwapStep w) = w := by
  obtain ⟨t, b, h, c⟩ := w
  simp only at hb hh
  rcases b with _ | ⟨b0, _ | ⟨b1, bt⟩⟩ <;> simp at hb
  rcases h with _ | ⟨h0, _ | ⟨h1, ht⟩⟩ <;> simp at hh
  cases h0 <;> simp [probeAndSwapStep]

theorem condSwap_involution (w : World) (hb : 1 ≤ w.battery.length)
    (hh : 2 ≤ w.hot_bath.length) (hc : 1 ≤ w.cold_bath.length) :
    condSwapStep (condSwapStep w) = w := by
  obtain ⟨t, b, h, c⟩ := w
  simp only at hb hh hc
  rcases b with _ | ⟨b0, bt⟩ <;> simp at hb
  rcases h with _ | ⟨h0, _ | ⟨h1, ht⟩⟩ <;> simp at hh
  rcases c with _ | ⟨c0, ct⟩ <;> simp at hc
  cases h0 <;> cases h1 <;> cases c0 <;> cases b0 <;> simp [condSwapStep]

theorem probeAndSwapStep_tick (w : World) (τ : Int) :
    probeAndSwapStep { w with t := τ } = { probeAndSwapStep w with t := τ } := by
  obtain ⟨t, b, h, c⟩ := w
  unfold probeAndSwapStep
  dsimp only
  by_cases h0 : h.getD 0 false = true
  · simp only [if_pos h0]
  · simp only [if_neg h0]

theorem condSwapStep_tick (w : World) (τ : Int) :
    condSwapStep { w with t := τ } = { condSwapStep w with t := τ } := by
  obtain ⟨t, b, h, c⟩ := w
  unfold condSwapStep
  dsimp only
  by_cases hq : (h.getD 0 false, h.getD 1 false, c.getD 0 false, b.getD 0 false)
        = (true, true, false, false)
      ∨ (h.getD 0 false, h.getD 1 false, c.getD 0 false, b.getD 0 false)
        = (false, false, true, true)
  · simp only [if_pos hq]
  · simp only [if_neg hq]

theorem Permute.stepW_tick (r : Permute) (w : World) (τ : Int) :
    r.stepW { w with t := τ } = { r.stepW w with t := τ } := rfl

/-! Round-trip lemmas for the two permutation rules. -/

theorem Permute.stepW_roundTrip (r : Permute) (w : World)
    (hb : List.Perm r.battery (List.range w.battery.length))
    (hh : List.Perm r.hot_bath (List.range w.hot_bath.length))
    (hc : List.Perm r.cold_bath (List.range w.cold_bath.length)) :
    r.inverseR.stepW (r.stepW w) = w := by
  obtain ⟨t, b, h, c⟩ := w
  simp only at hb hh hc
  unfold Permute.stepW Permute.inverseR
  dsimp only
  simp only [World.mk.injEq]
  refine ⟨trivial,
    permute_invert_into hb (perm_range_length hb) rfl,
    permute_invert_into hh (perm_range_length hh) rfl,
    permute_invert_into hc (perm_range_length hc) rfl⟩

theorem weird_roundTrip (s : Nat) (w : World) :
    WeirdPermute.stepW ⟨s, true⟩ { WeirdPermute.stepW ⟨s, false⟩ w with t := w.t + 1 }
      = { w with t := w.t + 1 } := by
  obtain ⟨t, b, h, c⟩ := w
  unfold WeirdPermute.stepW WeirdPermute.slotPerm
  dsimp only
  simp only [eq_self_iff_true, Bool.false_eq_true, ite_true, ite_false, sub_zero,
    permute_length, add_sub_cancel_right, World.mk.injEq]
  refine ⟨trivial,
    permute_invert_permutation (generate_perm _ _) rfl,
    permute_invert_permutation (generate_perm _ _) rfl,
    permute_invert_permutation (generate_perm _ _) rfl⟩

/-! Round trip of the invertibility protocol, for every rule whose
`WeirdPermute` occurrences are forward-oriented, on compatible worlds. -/

mutual

theorem Rule.roundTripAux : ∀ (r : Rule) (w : World),
    Rule.compatB r w.battery.length w.hot_bath.length w.cold_bath.length = true →
    Rule.fwdB r = true →
    Rule.step r.inverse { Rule.step r w with t := w.t + 1 } = { w with t := w.t + 1 }
  | .probeAndSwap, w, hc, _ => by
    simp only [Rule.compatB, Bool.and_eq_true, decide_eq_true_eq] at hc
    simp only [Rule.inverse, Rule.step]
    rw [probeAndSwapStep_tick (probeAndSwapStep w) (w.t + 1),
      probeAndSwap_involution w hc.1 hc.2]
  | .permuteR r, w, hc, _ => by
    simp only [Rule.compatB, Bool.and_eq_true, decide_eq_true_eq] at hc
    simp only [Rule.inverse, Rule.step]
    rw [Permute.stepW_tick r.inverseR (r.stepW w) (w.t + 1),
      Permute.stepW_roundTrip r w hc.1.1 hc.1.2 hc.2]
  | .weird r, w, _, hf => by
    obtain ⟨s, inv⟩ := r
    simp only [Rule.fwdB, Bool.not_eq_true'] at hf
    subst hf
    simp only [Rule.inverse, Rule.step, Bool.not_false]
    exact weird_roundTrip s w
  | .condSwap, w, hc, _ => by
    simp only [Rule.compatB, Bool.and_eq_true, decide_eq_true_eq] at hc
    simp only [Rule.inverse, Rule.step]
    rw [condSwapStep_tick (condSwapStep w) (w.t + 1),
      condSwap_involution w hc.1.1 hc.1.2 hc.2]
  | .composite rs, w, hc, hf => by
    simp only [Rule.compatB] at hc
    simp only [Rule.fwdB] at hf
    simp only [Rule.inverse, Rule.step]
    exact stepSeq_roundTripAux rs w hc hf

theorem stepSeq_roundTripAux : ∀ (rs : List Rule) (w : World),
    compatSeq rs w.battery.length w.hot_bath.length w.cold_bath.length = true →
    fwdSeq rs = true →
    stepSeq (invSeq rs) { stepSeq rs w with t := w.t + 1 } = { w with t := w.t + 1 }
  | [], w, _, _ => by
    simp only [invSeq, stepSeq]
  | r :: rs, w, hc, hf => by
    simp only [compatSeq, Bool.and_eq_true] at hc
    simp only [fwdSeq, Bool.and_eq_true] at hf
    simp only [invSeq, stepSeq]
    rw [stepSeq_append]
    obtain ⟨l1, l2, l3⟩ := Rule.step_lens r w
    have hc2 : compatSeq rs (Rule.step r w).battery.length
        (Rule.step r w).hot_bath.length (Rule.step r w).cold_bath.length = true := by
      rw [l1, l2, l3]; exact hc.2
    have ih := stepSeq_roundTripAux rs (Rule.step r w) hc2 hf.2
    rw [Rule.step_t r w] at ih
    rw [ih]
    simp only [stepSeq]
    exact Rule.roundTripAux r w hc.1 hf.1

end

/-! Conservation: every rule step preserves the total number of true cells. -/

theorem permute_sumbools {p : List Nat} {xs : List Bool}
    (hp : List.Perm p (List.range xs.length)) :
    sumbools (permute p xs) = sumbools xs :=
  (permute_perm hp).count_eq true

theorem slotPerm_perm (r : WeirdPermute) (t : Int) (n : Nat) :
    List.Perm (r.slotPerm t n) (List.range n) := by
  unfold WeirdPermute.slotPerm
  split
  · exact invert_permutation_perm (generate_perm _ _)
  · exact generate_perm _ _

theorem probeAndSwap_total (w : World) (hb : 2 ≤ w.battery.length)
    (hh : 2 ≤ w.hot_bath.length) : (probeAndSwapStep w).total = w.total := by
  obtain ⟨t, b, h, c⟩ := w
  simp only at hb hh
  rcases b with _ | ⟨b0, _ | ⟨b1, bt⟩⟩ <;> simp at hb
  rcases h with _ | ⟨h0, _ | ⟨h1, ht⟩⟩ <;> simp at hh
  cases h0 <;> cases h1 <;> cases b1 <;>
    simp [probeAndSwapStep, World.total, sumbools, List.count_cons] <;> omega

theorem condSwap_total (w : World) (hb : 1 ≤ w.battery.length)
    (hh : 2 ≤ w.hot_bath.length) (hc : 1 ≤ w.cold_bath.length) :
    (condSwapStep w).total = w.total := by
  obtain ⟨t, b, h, c⟩ := w
  simp only at hb hh hc
  rcases b with _ | ⟨b0, bt⟩ <;> simp at hb
  rcases h with _ | ⟨h0, _ | ⟨h1, ht⟩⟩ <;> simp at hh
  rcases c with _ | ⟨c0, ct⟩ <;> simp at hc
  cases h0 <;> cases h1 <;> cases c0 <;> cases b0 <;>
    simp [condSwapStep, World.total, sumbools, List.count_cons] <;> omega

theorem permuteRule_total (r : Permute) (w : World)
    (hb : List.Perm r.battery (List.range w.battery.length))
    (hh : List.Perm r.hot_bath (List.range w.hot_bath.length))
    (hc : List.Perm r.cold_bath (List.range w.cold_bath.length)) :
    (r.stepW w).total = w.total := by
  unfold Permute.stepW World.total
  dsimp only
  rw [permute_sumbools hb, permute_sumbools hh, permute_sumbools hc]

theorem weirdPermute_total (r : WeirdPermute) (w : World) :
    (r.stepW w).total = w.total := by
  unfold WeirdPermute.stepW World.total
  dsimp only
  rw [permute_sumbools (slotPerm_perm r _ _), permute_sumbools (slotPerm_perm r _ _),
    permute_sumbools (slotPerm_perm r _ _)]

mutual

theorem Rule.step_total : ∀ (r : Rule) (w : World),
    Rule.compatB r w.battery.length w.hot_bath.length w.cold_bath.length = true →
    (Rule.step r w).total = w.total
  | .probeAndSwap, w, hc => by
    simp only [Rule.compatB, Bool.and_eq_true, decide_eq_true_eq] at hc
    simp only [Rule.step]
    exact probeAndSwap_total w hc.1 hc.2
  | .permuteR r, w, hc => by
    simp only [Rule.compatB, Bool.and_eq_true, decide_eq_true_eq] at hc
    simp only [Rule.step]
    exact permuteRule_total r w hc.1.1 hc.1.2 hc.2
  | .weird r, w, _ => by
    simp only [Rule.step]
    exact weirdPermute_total r w
  | .condSwap, w, hc => by
    simp only [Rule.compatB, Bool.and_eq_true, decide_eq_true_eq] at hc
    simp only [Rule.step]
    exact condSwap_total w hc.1.1 hc.1.2 hc.2
  | .composite rs, w, hc => by
    simp only [Rule.compatB] at hc
    simp only [Rule.step]
    exact stepSeq_total rs w hc

theorem stepSeq_total : ∀ (rs : List Rule) (w : World),
    compatSeq rs w.battery.length w.hot_bath.length w.cold_bath.length = true →
    (stepSeq rs w).total = w.total
  | [], w, _ => by simp only [stepSeq]
  | r :: rs, w, hc => by
    simp only [compatSeq, Bool.and_eq_true] at hc
    simp only [stepSeq]
    obtain ⟨l1, l2, l3⟩ := Rule.step_lens r w
    have hc2 : compatSeq rs (Rule.step r w).battery.length
        (Rule.step r w).hot_bath.length (Rule.step r w).cold_bath.length = true := by
      rw [l1, l2, l3]; exact hc.2
    rw [stepSeq_total rs (Rule.step r w) hc2, Rule.step_total r w hc.1]

end

/-! Supporting lemmas for the composite-inverse and readout statements. -/

theorem invSeq_eq_reverse_map : ∀ rs : List Rule,
    invSeq rs = (rs.reverse).map Rule.inverse
  | [] => rfl
  | r :: rs => by
    simp only [invSeq, List.reverse_cons, List.map_append, List.map_cons, List.map_nil,
      invSeq_eq_reverse_map rs]

/-- The four cells `CondSwap` observes, as a quadruple
`(hot[0], hot[1], cold[0], battery[0])`. -/
def condReadout (w : World) : Bool × Bool × Bool × Bool :=
  (w.hot_bath.getD 0 false, w.hot_bath.getD 1 false,
    w.cold_bath.getD 0 false, w.battery.getD 0 false)

/-! Claim theorems. -/

/-- C9: every rule variant's step preserves the length of each slot: for every
rule defined in the program and every world, the lengths of battery, hot_bath
and cold_bath after `step` equal their lengths before. -/
theorem C9_step_preserves_lengths (r : Rule) (w : World) :
    (Rule.step r w).battery.length = w.battery.length ∧
      (Rule.step r w).hot_bath.length = w.hot_bath.length ∧
      (Rule.step r w).cold_bath.length = w.cold_bath.length :=
  Rule.step_lens r w

/-- C10: no rule's step modifies the tick counter: for every rule and every
world, `world.t` after `step` equals `world.t` before. -/
theorem C10_step_preserves_t (r : Rule) (w : World) :
    (Rule.step r w).t = w.t :=
  Rule.step_t r w

/-- C5: for every rule variant defined in the program and every well-formed
world (indexed accesses in range, stored permutations matching slot lengths),
the total number of true cells summed over the three slots is unchanged by a
single `step`. -/
theorem C5_conservation (r : Rule) (w : World)
    (hc : Rule.compatB r w.battery.length w.hot_bath.length w.cold_bath.length = true) :
    (Rule.step r w).total = w.total :=
  Rule.step_total r w hc

/-- C5 witness: a composite of `CondSwap`, an inverted `WeirdPermute` and
`ProbeAndSwap` on a concrete world conserves the true-count. -/
theorem C5_conservation_witness :
    Rule.compatB (Rule.composite [Rule.condSwap, Rule.weird ⟨7, true⟩, Rule.probeAndSwap])
        2 2 1 = true ∧
      (Rule.step (Rule.composite [Rule.condSwap, Rule.weird ⟨7, true⟩, Rule.probeAndSwap])
          ⟨5, [true, false], [true, true], [false]⟩).total
        = (⟨5, [true, false], [true, true], [false]⟩ : World).total :=
  ⟨by decide, C5_conservation _ _ (by decide)⟩

/-- C2: the inverse of a composite rule is the composite of the per-element
inverses in reverse order, and stepping with that inverse is the same as
stepping through the reversed inverses in order (also for nested composites). -/
theorem C2_composite_inverse (rs : List Rule) :
    Rule.inverse (Rule.composite rs) = Rule.composite ((rs.reverse).map Rule.inverse) ∧
      ∀ w : World, Rule.step (Rule.inverse (Rule.composite rs)) w
        = stepSeq ((rs.reverse).map Rule.inverse) w := by
  constructor
  · simp only [Rule.inverse, invSeq_eq_reverse_map]
  · intro w
    simp only [Rule.inverse, invSeq_eq_reverse_map, Rule.step]

/-- C6: for all `n ≥ 1`, all seeds, and every sequence of length `n`, applying
the generated permutation and then its algebraic inverse reproduces the
sequence exactly. -/
theorem C6_permutation_roundTrip {α : Type*} [Inhabited α] (n s : Nat) (xs : List α)
    (_hn : 1 ≤ n) (hxs : xs.length = n) :
    permute (invert_permutation (generate_random_permutation n s))
        (permute (generate_random_permutation n s) xs) = xs :=
  permute_invert_permutation (generate_perm n s) hxs

/-- C6 witness: the round trip on `[0,…,9]` with seed 0 (the shape of the
repository's own `test_invert_permutation`). -/
theorem C6_permutation_roundTrip_witness :
    1 ≤ 10 ∧ ([0, 1, 2, 3, 4, 5, 6, 7, 8, 9] : List Nat).length = 10 ∧
      permute (invert_permutation (generate_random_permutation 10 0))
          (permute (generate_random_permutation 10 0)
            ([0, 1, 2, 3, 4, 5, 6, 7, 8, 9] : List Nat))
        = [0, 1, 2, 3, 4, 5, 6, 7, 8, 9] :=
  ⟨by decide, by decide, C6_permutation_roundTrip 10 0 _ (by decide) (by decide)⟩

/-- C8: counterexample — requesting a permutation for a zero-length slot does
not fail: `generate_random_permutation` silently succeeds at `n = 0`,
returning the empty permutation, and applying it is harmless; the program
defines no `ConfigError` and performs no construction-time validation. -/
theorem C8_counterexample :
    generate_random_permutation 0 5 = [] ∧
      permute (generate_random_permutation 0 5) ([] : List Bool) = [] := by
  exact ⟨rfl, rfl⟩

/-- C8 (amended): for every seed, `generate_random_permutation 0 seed`
returns normally with the empty permutation; there is no error path, so
zero-length slots are the caller's responsibility. -/
theorem C8_generate_zero (s : Nat) : generate_random_permutation 0 s = [] := rfl

/-- C7: on any world whose hot_bath and battery have at least 2 cells,
`ProbeAndSwap.step` exchanges `hot_bath[1]` with `battery[1]` exactly when
`hot_bath[0]` is true, otherwise changes nothing; its inverse is itself, and
applying it twice restores the world. -/
theorem C7_probeAndSwap (w : World) (hh : 2 ≤ w.hot_bath.length)
    (hb : 2 ≤ w.battery.length) :
    (w.hot_bath.getD 0 false = true →
      probeAndSwapStep w
        = { w with
            battery := w.battery.set 1 (w.hot_bath.getD 1 false),
            hot_bath := w.hot_bath.set 1 (w.battery.getD 1 false) }) ∧
    (w.hot_bath.getD 0 false = false → probeAndSwapStep w = w) ∧
    probeAndSwapStep (probeAndSwapStep w) = w ∧
    Rule.inverse Rule.probeAndSwap = Rule.probeAndSwap := by
  refine ⟨?_, ?_, probeAndSwap_involution w hb hh, by simp only [Rule.inverse]⟩
  · intro h0
    unfold probeAndSwapStep
    rw [if_pos h0]
  · intro h0
    unfold probeAndSwapStep
    rw [if_neg (by simp only [h0]; exact Bool.false_ne_true)]

/-- C7 witness: the double application on a concrete world with a true probe
cell restores the original. -/
theorem C7_probeAndSwap_witness :
    probeAndSwapStep (probeAndSwapStep ⟨0, [false, true], [true, false], []⟩)
      = ⟨0, [false, true], [true, false], []⟩ :=
  (C7_probeAndSwap ⟨0, [false, true], [true, false], []⟩ (by decide) (by decide)).2.2.1

/-- C4: over the 16 combinations of the four observed cells, exactly the two
patterns `(T,T,F,F)` and `(F,F,T,T)` trigger the two exchanges
`hot[0] <-> cold[0]` and `hot[1] <-> battery[0]`, each mapping to the other;
the other 14 leave the world unchanged; hence `CondSwap.step` is an involution
and `CondSwap` is its own inverse. -/
theorem C4_condSwap (w : World) (hb : 1 ≤ w.battery.length)
    (hh : 2 ≤ w.hot_bath.length) (hc : 1 ≤ w.cold_bath.length) :
    (condReadout w = (true, true, false, false)
        ∨ condReadout w = (false, false, true, true) →
      condSwapStep w
          = { w with
              hot_bath := (w.hot_bath.set 0 (w.cold_bath.getD 0 false)).set 1
                (w.battery.getD 0 false),
              cold_bath := w.cold_bath.set 0 (w.hot_bath.getD 0 false),
              battery := w.battery.set 0 (w.hot_bath.getD 1 false) } ∧
        (condReadout w = (true, true, false, false) →
          condReadout (condSwapStep w) = (false, false, true, true)) ∧
        (condReadout w = (false, false, true, true) →
          condReadout (condSwapStep w) = (true, true, false, false))) ∧
    (condReadout w ≠ (true, true, false, false) →
      condReadout w ≠ (false, false, true, true) → condSwapStep w = w) ∧
    condSwapStep (condSwapStep w) = w ∧
    Rule.inverse Rule.condSwap = Rule.condSwap := by
  obtain ⟨t, b, h, c⟩ := w
  simp only at hb hh hc
  rcases b with _ | ⟨b0, bt⟩
  · simp at hb
  rcases h with _ | ⟨h0, _ | ⟨h1, ht⟩⟩
  · simp at hh
  · simp at hh
  rcases c with _ | ⟨c0, ct⟩
  · simp at hc
  refine ⟨?_, ?_, ?_, by simp only [Rule.inverse]⟩ <;>
    cases h0 <;> cases h1 <;> cases c0 <;> cases b0 <;>
      simp [condSwapStep, condReadout]

/-- C4 witness: on a concrete world in the first trigger pattern, applying
`CondSwap` twice restores the world. -/
theorem C4_condSwap_witness :
    condSwapStep (condSwapStep ⟨0, [false], [true, true], [false]⟩)
      = ⟨0, [false], [true, true], [false]⟩ :=
  (C4_condSwap ⟨0, [false], [true, true], [false]⟩
    (by decide) (by decide) (by decide)).2.2.1

/-- C3: forward `WeirdPermute` at tick `t` applies, to each slot, the
permutation `generate(slot_length, seed + t)` (wrapping addition); inverted
`WeirdPermute` at tick `t` uses effective time `t - 1` and applies the
algebraic inverse of the permutation `generate` would produce there; hence the
forward step at tick `t` followed by the inverted step at tick `t + 1`
restores every slot. -/
theorem C3_weirdPermute (s : Nat) (w : World) :
    WeirdPermute.stepW ⟨s, false⟩ w
        = { w with
            battery := permute (generate_random_permutation w.battery.length
              (wrapAddSigned s w.t)) w.battery,
            hot_bath := permute (generate_random_permutation w.hot_bath.length
              (wrapAddSigned s w.t)) w.hot_bath,
            cold_bath := permute (generate_random_permutation w.cold_bath.length
              (wrapAddSigned s w.t)) w.cold_bath } ∧
      WeirdPermute.stepW ⟨s, true⟩ w
        = { w with
            battery := permute (invert_permutation (generate_random_permutation
              w.battery.length (wrapAddSigned s (w.t - 1)))) w.battery,
            hot_bath := permute (invert_permutation (generate_random_permutation
              w.hot_bath.length (wrapAddSigned s (w.t - 1)))) w.hot_bath,
            cold_bath := permute (invert_permutation (generate_random_permutation
              w.cold_bath.length (wrapAddSigned s (w.t - 1)))) w.cold_bath } ∧
      WeirdPermute.stepW ⟨s, true⟩ { WeirdPermute.stepW ⟨s, false⟩ w with t := w.t + 1 }
        = { w with t := w.t + 1 } := by
  refine ⟨?_, ?_, weird_roundTrip s w⟩
  · unfold WeirdPermute.stepW WeirdPermute.slotPerm
    dsimp only
    simp only [Bool.false_eq_true, ite_false, sub_zero]
  · unfold WeirdPermute.stepW WeirdPermute.slotPerm
    dsimp only
    simp only [eq_self_iff_true, ite_true]

/-- C1: counterexample — for `WeirdPermute` in inverted orientation the
claimed protocol (step, `t + 1`, inverse step, `t - 1`) does not restore the
world: at tick 1 the inverted rule derives its permutation from effective time
0, while its inverse (the forward rule) at tick 2 derives from time 2, a
different permutation. -/
theorem C1_counterexample :
    roundTrip (Rule.weird ⟨0, true⟩)
        ⟨1, [true, false, false, false], [false, false, false, false],
          [false, false, false, false]⟩
      ≠ ⟨1, [true, false, false, false], [false, false, false, false],
          [false, false, false, false]⟩ := by
  decide

/-- C1 (amended): for every rule variant whose `WeirdPermute` occurrences are
all forward-oriented (`inverted = false`), including arbitrarily nested
composites, and every compatible world: applying `step`, incrementing `t`,
applying the inverse rule's `step` and decrementing `t` restores the world
exactly. -/
theorem C1_roundTrip (r : Rule) (w : World)
    (hc : Rule.compatB r w.battery.length w.hot_bath.length w.cold_bath.length = true)
    (hf : Rule.fwdB r = true) :
    roundTrip r w = w := by
  unfold roundTrip
  dsimp only
  rw [Rule.step_t r w, Rule.roundTripAux r w hc hf]
  dsimp only
  rw [add_sub_cancel_right]

/-- C1 witness: the protocol on a nested composite of all four variants over a
concrete world. -/
theorem C1_roundTrip_witness :
    roundTrip (Rule.composite [Rule.condSwap, Rule.weird ⟨42, false⟩,
        Rule.composite [Rule.probeAndSwap, Rule.permuteR ⟨[1, 0], [0, 1], [0]⟩]])
      ⟨0, [true, false], [true, true], [false]⟩
      = ⟨0, [true, false], [true, true], [false]⟩ :=
  C1_roundTrip _ _ (by decide) (by decide)
